import Mathlib

/-!
Shallow embedding of `src/reference_genome.rs` from
`holtjma/rust-lib-reference-genome`.

The Rust `ReferenceGenome` stores a filename, an insertion-ordered list of
contig names (`contig_keys : Vec<String>`), and a hash map from contig name
to sequence bytes (`contig_map : FxHashMap<String, Vec<u8>>`).

Modelling choices:
* sequences are `List Nat` (byte values);
* the hash map is an association list `List (String × List Nat)`; `insert`
  replaces the value of an existing key in place and otherwise appends,
  matching `HashMap::insert` on the observable (get / key-set) interface;
* panics (`expect`, `assert!`, used by the read operations) are modelled by
  `Option`: `none` is a panic;
* fallible operations (`from_fasta`, `add_contig`) return `Except String`;
  `add_contig` takes `&mut self` in Rust, so it is modelled state-passing:
  it returns the resulting store together with the `Result`, the bail path
  returning the store unchanged;
* `from_fasta` consumes the stream of parsed FASTA records produced by the
  external `bio::io::fasta` parser; each stream element is
  `Except String (String × List Nat)` — an I/O / parse error or a record
  `(id, seq)` — mirroring `fasta_reader.records()` yielding
  `Result<Record, _>` and the `entry?` propagation in the loop.
  File opening and gzip decoding live outside the shallow embedding.
-/

/-- Byte-wise ASCII upper-casing, as `u8::to_ascii_uppercase` /
`str::to_ascii_uppercase` applied byte by byte: bytes 97..=122 (ASCII
`a`..`z`) are shifted down by 32, every other byte is unchanged. -/
def toAsciiUpper (b : Nat) : Nat :=
  if 97 ≤ b ∧ b ≤ 122 then b - 32 else b

/-- `FxHashMap::contains_key` on the association-list model. -/
def mapContains (m : List (String × List Nat)) (k : String) : Bool :=
  m.any (fun p => p.1 == k)

/-- `FxHashMap::get` on the association-list model. -/
def mapGet (m : List (String × List Nat)) (k : String) : Option (List Nat) :=
  (m.find? (fun p => p.1 == k)).map Prod.snd

/-- `FxHashMap::insert` on the association-list model: replace the value of
an existing key in place, otherwise append the new binding. -/
def mapInsert (m : List (String × List Nat)) (k : String) (v : List Nat) :
    List (String × List Nat) :=
  if mapContains m k then m.map (fun p => if p.1 == k then (k, v) else p)
  else m ++ [(k, v)]

/-- The `ReferenceGenome` struct: loaded filename, contig keys in load
order, and the name → ASCII sequence map. -/
structure ReferenceGenome where
  filename : String
  contig_keys : List String
  contig_map : List (String × List Nat)
deriving Repr, DecidableEq

/-- `ReferenceGenome::empty_reference`: empty filename, no keys, empty map. -/
def empty_reference : ReferenceGenome :=
  { filename := "", contig_keys := [], contig_map := [] }

/-- The record loop of `ReferenceGenome::from_fasta`: for each entry, `?`
propagates a stream error; otherwise the record id is pushed onto
`contig_keys` and `(id, seq.to_ascii_uppercase())` is inserted into
`contig_map`. -/
def fromFastaLoop (entries : List (Except String (String × List Nat)))
    (contig_keys : List String) (contig_map : List (String × List Nat)) :
    Except String (List String × List (String × List Nat)) :=
  match entries with
  | [] => Except.ok (contig_keys, contig_map)
  | entry :: rest =>
    match entry with
    | Except.error e => Except.error e
    | Except.ok (seq_id, sequence) =>
        fromFastaLoop rest (contig_keys ++ [seq_id])
          (mapInsert contig_map seq_id (sequence.map toAsciiUpper))

/-- `ReferenceGenome::from_fasta`, over the stream of parsed records: runs
the record loop from empty accumulators and packages the result with the
filename. -/
def from_fasta (fasta_fn : String)
    (entries : List (Except String (String × List Nat))) :
    Except String ReferenceGenome :=
  match fromFastaLoop entries [] [] with
  | Except.error e => Except.error e
  | Except.ok (contig_keys, contig_map) =>
      Except.ok { filename := fasta_fn, contig_keys := contig_keys,
                  contig_map := contig_map }

/-- `ReferenceGenome::add_contig`: bails with the duplicate-key message when
the key is already in `contig_map` (leaving the store untouched), otherwise
pushes the key and inserts the upper-cased byte form. -/
def add_contig (rg : ReferenceGenome) (contig_key : String)
    (contig_sequence : List Nat) : ReferenceGenome × Except String Unit :=
  if mapContains rg.contig_map contig_key then
    (rg, Except.error ("Contig key \"" ++ contig_key ++
      "\" is already in the reference genome"))
  else
    ({ rg with
        contig_keys := rg.contig_keys ++ [contig_key],
        contig_map := mapInsert rg.contig_map contig_key
          (contig_sequence.map toAsciiUpper) },
     Except.ok ())

/-- `ReferenceGenome::get_slice`: panics (`none`) when the chromosome is
missing or `start > end`; otherwise each bound is independently truncated to
the contig length and the half-open byte range is returned. -/
def get_slice (rg : ReferenceGenome) (chromosome : String)
    (start fin : Nat) : Option (List Nat) :=
  match mapGet rg.contig_map chromosome with
  | none => none
  | some full_contig =>
    if start ≤ fin then
      let truncated_start :=
        if start ≤ full_contig.length then start else full_contig.length
      let truncated_end :=
        if fin ≤ full_contig.length then fin else full_contig.length
      some ((full_contig.take truncated_end).drop truncated_start)
    else none

/-- `ReferenceGenome::get_full_chromosome`: panics (`none`) when the
chromosome is missing, otherwise returns the whole stored sequence. -/
def get_full_chromosome (rg : ReferenceGenome) (chromosome : String) :
    Option (List Nat) :=
  mapGet rg.contig_map chromosome

/-- Inserting one parsed FASTA record into the map: the loop body of
`from_fasta` seen as a fold step. -/
def insertRecord (m : List (String × List Nat)) (r : String × List Nat) :
    List (String × List Nat) :=
  mapInsert m r.1 (r.2.map toAsciiUpper)

/-! ### Helper lemmas about the association-list map -/

theorem mapContains_iff_mem (m : List (String × List Nat)) (k : String) :
    mapContains m k = true ↔ k ∈ m.map Prod.fst := by
  simp [mapContains, List.any_eq_true, List.mem_map]

theorem mapGet_isSome_eq_mapContains (m : List (String × List Nat))
    (k : String) : (mapGet m k).isSome = mapContains m k := by
  induction m with
  | nil => rfl
  | cons p rest ih =>
    simp only [mapGet, mapContains, List.find?_cons, List.any_cons] at *
    cases h : (p.1 == k) <;> simp [h, ih]

theorem find?_replace_self (m : List (String × List Nat)) (k : String)
    (v : List Nat) (hc : mapContains m k = true) :
    (m.map (fun p => if p.1 == k then (k, v) else p)).find?
      (fun p => p.1 == k) = some (k, v) := by
  induction m with
  | nil => simp [mapContains] at hc
  | cons p rest ih =>
    simp only [List.map_cons]
    cases h : (p.1 == k) with
    | true => simp [List.find?_cons]
    | false =>
      have hc' : mapContains rest k = true := by
        simpa [mapContains, h] using hc
      simpa [List.find?_cons, h] using ih hc'

theorem find?_replace_other (m : List (String × List Nat)) (k : String)
    (v : List Nat) (k' : String) (hne : k' ≠ k) :
    (m.map (fun p => if p.1 == k then (k, v) else p)).find?
      (fun p => p.1 == k') = m.find? (fun p => p.1 == k') := by
  induction m with
  | nil => rfl
  | cons p rest ih =>
    simp only [List.map_cons]
    cases h : (p.1 == k) with
    | true =>
      have hp1 : p.1 = k := by simpa using h
      have hb : ((k : String) == k') = false := by simp [Ne.symm hne]
      have hb' : (p.1 == k') = false := by simp [hp1, Ne.symm hne]
      simpa [List.find?_cons, hb, hb'] using ih
    | false =>
      cases h' : (p.1 == k') with
      | true => simp [List.find?_cons, h']
      | false =>
        simp only [List.find?_cons, h', Bool.false_eq_true, if_false]
        exact ih

theorem mapGet_mapInsert (m : List (String × List Nat)) (k k' : String)
    (v : List Nat) :
    mapGet (mapInsert m k v) k' = if k' = k then some v else mapGet m k' := by
  by_cases hc : mapContains m k = true
  · simp only [mapInsert]
    rw [if_pos hc]
    by_cases he : k' = k
    · subst he
      rw [if_pos rfl]
      simp only [mapGet]
      rw [find?_replace_self m k' v hc]
      rfl
    · rw [if_neg he]
      simp only [mapGet]
      rw [find?_replace_other m k v k' he]
  · have hcf : mapContains m k = false := by simpa using hc
    simp only [mapInsert]
    rw [if_neg hc]
    by_cases he : k' = k
    · subst he
      have hnone : m.find? (fun p => p.1 == k') = none := by
        rw [List.find?_eq_none]
        intro p hp hcon
        have hmem : mapContains m k' = true := by
          rw [mapContains_iff_mem]
          exact List.mem_map.2 ⟨p, hp, by simpa using hcon⟩
        rw [hmem] at hcf
        exact Bool.true_eq_false.mp hcf
      rw [if_pos rfl]
      simp only [mapGet, List.find?_append, hnone, List.find?_cons]
      simp
    · have hb : ((k, v).1 == k') = false := by simp [Ne.symm he]
      rw [if_neg he]
      simp only [mapGet, List.find?_append, List.find?_cons, hb]
      cases m.find? (fun p => p.1 == k') <;> rfl

theorem mapInsert_map_fst_of_not_contains (m : List (String × List Nat))
    (k : String) (v : List Nat) (hc : mapContains m k = false) :
    (mapInsert m k v).map Prod.fst = m.map Prod.fst ++ [k] := by
  simp [mapInsert, hc]

/-! ### Helper lemmas about the `from_fasta` record loop -/

theorem fromFastaLoop_ok (rs : List (String × List Nat))
    (keys : List String) (m : List (String × List Nat)) :
    fromFastaLoop (rs.map Except.ok) keys m =
      Except.ok (keys ++ rs.map Prod.fst, rs.foldl insertRecord m) := by
  induction rs generalizing keys m with
  | nil => simp [fromFastaLoop]
  | cons r rest ih => simp [fromFastaLoop, insertRecord, ih]

theorem mapGet_foldl_insertRecord (rs : List (String × List Nat))
    (m : List (String × List Nat)) (k : String) :
    mapGet (rs.foldl insertRecord m) k =
      match rs.reverse.find? (fun r => r.1 == k) with
      | some r => some (r.2.map toAsciiUpper)
      | none => mapGet m k := by
  induction rs generalizing m with
  | nil => simp
  | cons r rest ih =>
    rw [List.foldl_cons, ih]
    cases hf : rest.reverse.find? (fun r => r.1 == k) with
    | some r' => simp [List.find?_append, hf]
    | none =>
      by_cases he : r.1 = k
      · simp [List.find?_append, hf, he, insertRecord, mapGet_mapInsert]
      · have hb : ¬(r.1 == k) = true := by simp [he]
        simp [List.find?_append, hf, hb, insertRecord, mapGet_mapInsert,
          Ne.symm he]

theorem foldl_insertRecord_map_fst (rs : List (String × List Nat))
    (m : List (String × List Nat))
    (hd : ∀ r ∈ rs, r.1 ∉ m.map Prod.fst)
    (hnd : (rs.map Prod.fst).Nodup) :
    (rs.foldl insertRecord m).map Prod.fst =
      m.map Prod.fst ++ rs.map Prod.fst := by
  induction rs generalizing m with
  | nil => simp
  | cons r rest ih =>
    have hc : mapContains m r.1 = false := by
      rw [← Bool.not_eq_true, mapContains_iff_mem]
      exact hd r (List.mem_cons_self r rest)
    have hkeys : (insertRecord m r).map Prod.fst = m.map Prod.fst ++ [r.1] :=
      mapInsert_map_fst_of_not_contains m r.1 (r.2.map toAsciiUpper) hc
    have hnd' : (rest.map Prod.fst).Nodup := (List.nodup_cons.1 hnd).2
    have hd' : ∀ r' ∈ rest, r'.1 ∉ (insertRecord m r).map Prod.fst := by
      intro r' hr'
      rw [hkeys]
      simp only [List.mem_append, List.mem_singleton]
      rintro (hmem | heq)
      · exact hd r' (List.mem_cons_of_mem r hr') hmem
      · have hmem : r.1 ∈ rest.map Prod.fst := List.mem_map.2 ⟨r', hr', heq⟩
        exact (List.nodup_cons.1 hnd).1 hmem
    rw [List.foldl_cons, ih (insertRecord m r) hd' hnd', hkeys]
    simp

/-! ### Concrete stores used by the witnesses -/

/-- The store obtained by adding contig `"x"` with sequence `"Acgt"`
(bytes `[65, 99, 103, 116]`) to the empty reference; the stored bytes are
`"ACGT"`. -/
def rgAcgt : ReferenceGenome :=
  { filename := "", contig_keys := ["x"],
    contig_map := [("x", [65, 67, 71, 84])] }

/-- A store with the single 8-byte contig `"chr1" = "ACGTACGT"`. -/
def rgChr : ReferenceGenome :=
  { filename := "", contig_keys := ["chr1"],
    contig_map := [("chr1", [65, 67, 71, 84, 65, 67, 71, 84])] }

/-- The store produced by `from_fasta` on a stream whose two records both
carry the identifier `"x"` (`"AA"` then `"CC"`): the key is listed twice and
the mapping retains the second sequence. -/
def rgDup : ReferenceGenome :=
  { filename := "f", contig_keys := ["x", "x"],
    contig_map := [("x", [67, 67])] }

/-- The store produced by `from_fasta` on records `"B"` then `"A"`
(non-alphabetical order). -/
def rgBA : ReferenceGenome :=
  { filename := "f", contig_keys := ["B", "A"],
    contig_map := [("B", [67]), ("A", [65])] }

/-! ### Claim theorems -/

/-- Claim C3 (confirmed): for every stored contig of length `L` and every
`start ≤ end`, `get_slice` returns the bytes of the stored sequence in the
half-open range `[min(start, L), min(end, L))`: both bounds are clamped down
to `L` independently, clamping is not an error, and equal clamped bounds give
a valid empty result. On a length-8 contig, `get_slice name 0 1000` equals
`get_slice name 0 8`, and `get_slice name 9 20` is an empty result with no
error. -/
theorem C3_get_slice_clamps (rg : ReferenceGenome) (name : String)
    (seq : List Nat) (h : mapGet rg.contig_map name = some seq) :
    (∀ start fin, start ≤ fin →
      get_slice rg name start fin =
        some ((seq.take (min fin seq.length)).drop (min start seq.length))) ∧
    (seq.length = 8 →
      get_slice rg name 0 1000 = get_slice rg name 0 8 ∧
      get_slice rg name 9 20 = some []) := by
  constructor
  · intro start fin hle
    simp only [get_slice, h]
    rw [if_pos hle, Nat.min_def, Nat.min_def]
  · intro hlen
    constructor
    · simp [get_slice, h, hlen]
    · have h8 : (seq.take 8).length ≤ 8 := by
        simp [List.length_take, hlen]
      simp [get_slice, h, hlen, List.drop_eq_nil_of_le h8]

/-- Witness for C3 at the concrete 8-byte store `rgChr`. -/
theorem C3_witness :
    get_slice rgChr "chr1" 0 1000 = get_slice rgChr "chr1" 0 8 ∧
    get_slice rgChr "chr1" 9 20 = some [] :=
  (C3_get_slice_clamps rgChr "chr1" [65, 67, 71, 84, 65, 67, 71, 84]
    (by decide)).2 (by decide)

/-- Claim C7 (confirmed): for every stored contig of length `L` and every
`i ≤ L`, `get_slice name i L` is exactly the suffix of the full chromosome
starting at offset `i`. -/
theorem C7_slice_is_suffix (rg : ReferenceGenome) (name : String)
    (seq : List Nat) (h : mapGet rg.contig_map name = some seq)
    (i : Nat) (hi : i ≤ seq.length) :
    get_full_chromosome rg name = some seq ∧
    get_slice rg name i seq.length = some (seq.drop i) := by
  constructor
  · simpa [get_full_chromosome] using h
  · simp only [get_slice, h]
    rw [if_pos hi]
    simp [hi, List.take_length]

/-- Witness for C7 at the concrete store `rgChr` with offset 3. -/
theorem C7_witness :
    get_full_chromosome rgChr "chr1" = some [65, 67, 71, 84, 65, 67, 71, 84] ∧
    get_slice rgChr "chr1" 3 ([65, 67, 71, 84, 65, 67, 71, 84] : List Nat).length =
      some (([65, 67, 71, 84, 65, 67, 71, 84] : List Nat).drop 3) :=
  C7_slice_is_suffix rgChr "chr1" [65, 67, 71, 84, 65, 67, 71, 84]
    (by decide) 3 (by decide)

/-- Claim C8 (confirmed): the read operations panic (modelled as `none`)
exactly on contract violations: `get_slice` returns `none` iff the name is
missing or `start > end`, and `get_full_chromosome` returns `none` iff the
name is missing; under the preconditions both return a value. -/
theorem C8_panic_exactly_on_violation (rg : ReferenceGenome) (c : String)
    (start fin : Nat) :
    ((get_slice rg c start fin).isSome ↔
      (mapGet rg.contig_map c).isSome ∧ start ≤ fin) ∧
    ((get_full_chromosome rg c).isSome ↔ (mapGet rg.contig_map c).isSome) := by
  constructor
  · cases h : mapGet rg.contig_map c with
    | none => simp [get_slice, h]
    | some seq =>
      by_cases hle : start ≤ fin
      · simp [get_slice, h, hle]
      · simp [get_slice, h, hle]
  · exact Iff.rfl

/-- Claim C4 (confirmed): adding a name already present fails with a
duplicate-key error naming the offending key, the store is returned
completely unchanged, and the previously stored data remains queryable
unchanged. -/
theorem C4_duplicate_insert_rejected (rg : ReferenceGenome) (k : String)
    (v s : List Nat) (h : mapGet rg.contig_map k = some v) :
    add_contig rg k s =
      (rg, Except.error ("Contig key \"" ++ k ++
        "\" is already in the reference genome")) ∧
    get_full_chromosome (add_contig rg k s).1 k = some v := by
  have hc : mapContains rg.contig_map k = true := by
    rw [← mapGet_isSome_eq_mapContains, h]
    rfl
  have heq : add_contig rg k s =
      (rg, Except.error ("Contig key \"" ++ k ++
        "\" is already in the reference genome")) := by
    simp only [add_contig]
    rw [if_pos hc]
  refine ⟨heq, ?_⟩
  rw [heq]
  simpa [get_full_chromosome] using h

/-- Witness for C4: re-inserting `"x"` into `rgAcgt`. -/
theorem C4_witness :
    add_contig rgAcgt "x" [97] =
      (rgAcgt, Except.error ("Contig key \"" ++ "x" ++
        "\" is already in the reference genome")) ∧
    get_full_chromosome (add_contig rgAcgt "x" [97]).1 "x" =
      some [65, 67, 71, 84] :=
  C4_duplicate_insert_rejected rgAcgt "x" [65, 67, 71, 84] [97] (by decide)

/-- Claim C5 (confirmed): insertion order is enumeration order. A successful
`from_fasta` yields `contig_keys` equal to the record identifiers in stream
order, whatever their alphabetical order; and a successful `add_contig`
appends the new name, which becomes the last element of the order list. -/
theorem C5_insertion_order_preserved :
    (∀ fn rs rg, from_fasta fn (List.map Except.ok rs) = Except.ok rg →
      rg.contig_keys = rs.map Prod.fst) ∧
    (∀ rg k s rg', add_contig rg k s = (rg', Except.ok ()) →
      rg'.contig_keys = rg.contig_keys ++ [k] ∧
      rg'.contig_keys.getLast? = some k) := by
  constructor
  · intro fn rs rg hok
    simp only [from_fasta, fromFastaLoop_ok, List.nil_append] at hok
    cases hok
    rfl
  · intro rg k s rg' hok
    by_cases hc : mapContains rg.contig_map k = true
    · rw [add_contig, if_pos hc] at hok
      injection hok with h1 h2
      exact absurd h2 (by simp)
    · rw [add_contig, if_neg hc] at hok
      injection hok with h1 h2
      subst h1
      exact ⟨rfl, List.getLast?_concat rg.contig_keys⟩

/-- Witness for C5: loading records `"B"` then `"A"` yields keys
`["B", "A"]`, not alphabetical order. -/
theorem C5_witness :
    rgBA.contig_keys = ([("B", [67]), ("A", [65])] :
      List (String × List Nat)).map Prod.fst :=
  C5_insertion_order_preserved.1 "f" [("B", [67]), ("A", [65])] rgBA (by rfl)

/-- Claim C6 (confirmed): sequences are upper-cased at insertion time and
never at read time: a successful `add_contig` stores exactly the byte-wise
upper-cased input; every sequence stored by a successful `from_fasta` is the
upper-case image of some input; `get_full_chromosome` returns the stored
bytes unchanged; and inserting `"Acgt"` under `"x"` then reading the whole
contig yields exactly `"ACGT"`. -/
theorem C6_uppercase_at_insertion :
    (∀ rg k s rg', add_contig rg k s = (rg', Except.ok ()) →
      mapGet rg'.contig_map k = some (s.map toAsciiUpper)) ∧
    (∀ fn rs rg, from_fasta fn (List.map Except.ok rs) = Except.ok rg →
      ∀ k v, mapGet rg.contig_map k = some v →
        ∃ s : List Nat, v = s.map toAsciiUpper) ∧
    (∀ rg c, get_full_chromosome rg c = mapGet rg.contig_map c) ∧
    get_full_chromosome (add_contig empty_reference "x" [65, 99, 103, 116]).1
      "x" = some [65, 67, 71, 84] := by
  refine ⟨?_, ?_, fun rg c => rfl, by decide⟩
  · intro rg k s rg' hok
    by_cases hc : mapContains rg.contig_map k = true
    · rw [add_contig, if_pos hc] at hok
      injection hok with h1 h2
      exact absurd h2 (by simp)
    · rw [add_contig, if_neg hc] at hok
      injection hok with h1 h2
      subst h1
      show mapGet (mapInsert rg.contig_map k (s.map toAsciiUpper)) k =
        some (s.map toAsciiUpper)
      rw [mapGet_mapInsert, if_pos rfl]
  · intro fn rs rg hok k v hget
    simp only [from_fasta, fromFastaLoop_ok, List.nil_append] at hok
    cases hok
    rw [mapGet_foldl_insertRecord] at hget
    cases hf : rs.reverse.find? (fun r => r.1 == k) with
    | some r =>
      rw [hf] at hget
      exact ⟨r.2, by simpa using hget.symm⟩
    | none =>
      rw [hf] at hget
      exact absurd hget (by simp [mapGet])

/-- Witness for C6 on the concrete `"Acgt"` insertion. -/
theorem C6_witness :
    mapGet rgAcgt.contig_map "x" =
      some (([65, 99, 103, 116] : List Nat).map toAsciiUpper) :=
  C6_uppercase_at_insertion.1 empty_reference "x" [65, 99, 103, 116] rgAcgt
    (by rfl)

/-- Claim C10 (confirmed): upper-casing affects exactly the ASCII bytes
97–122 (`a`–`z`, shifted down by 32 to `A`–`Z`); every other byte is stored
unchanged, the stored sequence has the input's length, and this byte-wise
map is precisely what `add_contig` and `from_fasta` store. -/
theorem C10_uppercase_only_ascii_lowercase :
    (∀ b, 97 ≤ b → b ≤ 122 → toAsciiUpper b = b - 32) ∧
    (∀ b, ¬(97 ≤ b ∧ b ≤ 122) → toAsciiUpper b = b) ∧
    (∀ s : List Nat, (s.map toAsciiUpper).length = s.length) ∧
    (∀ rg k s rg', add_contig rg k s = (rg', Except.ok ()) →
      get_full_chromosome rg' k = some (s.map toAsciiUpper)) ∧
    (∀ fn (rs : List (String × List Nat)) (k : String) (s : List Nat) rg,
      from_fasta fn (List.map Except.ok (rs ++ [(k, s)])) = Except.ok rg →
      get_full_chromosome rg k = some (s.map toAsciiUpper)) := by
  refine ⟨?_, ?_, fun s => List.length_map s toAsciiUpper, ?_, ?_⟩
  · intro b h1 h2
    simp [toAsciiUpper, h1, h2]
  · intro b h
    simp [toAsciiUpper, h]
  · intro rg k s rg' hok
    by_cases hc : mapContains rg.contig_map k = true
    · rw [add_contig, if_pos hc] at hok
      injection hok with h1 h2
      exact absurd h2 (by simp)
    · rw [add_contig, if_neg hc] at hok
      injection hok with h1 h2
      subst h1
      show mapGet (mapInsert rg.contig_map k (s.map toAsciiUpper)) k =
        some (s.map toAsciiUpper)
      rw [mapGet_mapInsert, if_pos rfl]
  · intro fn rs k s rg hok
    simp only [from_fasta, fromFastaLoop_ok, List.nil_append] at hok
    cases hok
    show mapGet ((rs ++ [(k, s)]).foldl insertRecord []) k =
      some (s.map toAsciiUpper)
    rw [mapGet_foldl_insertRecord]
    simp [List.find?_cons]

/-- Witness for C10: the `"Acgt"` insertion again, via `add_contig`. -/
theorem C10_witness :
    get_full_chromosome rgAcgt "x" =
      some (([65, 99, 103, 116] : List Nat).map toAsciiUpper) :=
  C10_uppercase_only_ascii_lowercase.2.2.2.1 empty_reference "x"
    [65, 99, 103, 116] rgAcgt (by rfl)

/-- Claim C9 (confirmed): when the stream yields several records with the
same identifier, the load succeeds with no error; the identifier is appended
to the order list once per occurrence, and the mapping retains the
(upper-cased) sequence of the last such record — each later record silently
overwrites the earlier one's entry. -/
theorem C9_last_record_wins (fn : String) (rs : List (String × List Nat)) :
    (from_fasta fn (List.map Except.ok rs)).isOk = true ∧
    ∀ rg, from_fasta fn (List.map Except.ok rs) = Except.ok rg →
      rg.contig_keys = rs.map Prod.fst ∧
      ∀ k, mapGet rg.contig_map k =
        (rs.reverse.find? (fun r => r.1 == k)).map
          (fun r => r.2.map toAsciiUpper) := by
  constructor
  · simp only [from_fasta, fromFastaLoop_ok]
    rfl
  · intro rg hok
    simp only [from_fasta, fromFastaLoop_ok, List.nil_append] at hok
    cases hok
    refine ⟨rfl, fun k => ?_⟩
    show mapGet (rs.foldl insertRecord []) k = _
    rw [mapGet_foldl_insertRecord]
    cases hf : rs.reverse.find? (fun r => r.1 == k) <;> simp [mapGet]

/-- Witness for C9 at the duplicated two-record stream. -/
theorem C9_witness :
    rgDup.contig_keys = ([("x", [65, 65]), ("x", [67, 67])] :
        List (String × List Nat)).map Prod.fst ∧
    mapGet rgDup.contig_map "x" =
      (([("x", [65, 65]), ("x", [67, 67])] :
        List (String × List Nat)).reverse.find? (fun r => r.1 == "x")).map
        (fun r => r.2.map toAsciiUpper) :=
  ⟨((C9_last_record_wins "f" [("x", [65, 65]), ("x", [67, 67])]).2 rgDup
      (by rfl)).1,
   ((C9_last_record_wins "f" [("x", [65, 65]), ("x", [67, 67])]).2 rgDup
      (by rfl)).2 "x"⟩

/-- Claim C1 counterexample: on a stream with two records named `"x"`
(`"AA"` then `"CC"`), the load succeeds — it is not rejected — and the
second record's sequence has overwritten the first one's stored sequence. -/
theorem C1_counterexample :
    (from_fasta "ref.fa" [Except.ok ("x", [65, 65]),
      Except.ok ("x", [67, 67])]).isOk = true ∧
    (from_fasta "ref.fa" [Except.ok ("x", [65, 65]),
      Except.ok ("x", [67, 67])]).map
      (fun rg => mapGet rg.contig_map "x") = Except.ok (some [67, 67]) :=
  ⟨rfl, rfl⟩

/-- Claim C1 (amended, proved): `from_fasta` applies no duplicate-rejection
rule. When the stream repeats an identifier, the load succeeds, the
identifier is listed once per occurrence, and the later record's
(upper-cased) sequence replaces the earlier one's mapping entry. -/
theorem C1_duplicates_overwrite (fn k : String) (s1 s2 : List Nat)
    (rs : List (String × List Nat)) :
    (from_fasta fn (List.map Except.ok (rs ++ [(k, s1), (k, s2)]))).isOk =
      true ∧
    ∀ rg, from_fasta fn (List.map Except.ok (rs ++ [(k, s1), (k, s2)])) =
        Except.ok rg →
      rg.contig_keys = rs.map Prod.fst ++ [k, k] ∧
      mapGet rg.contig_map k = some (s2.map toAsciiUpper) := by
  constructor
  · simp only [from_fasta, fromFastaLoop_ok]
    rfl
  · intro rg hok
    simp only [from_fasta, fromFastaLoop_ok, List.nil_append] at hok
    cases hok
    constructor
    · simp
    · show mapGet ((rs ++ [(k, s1), (k, s2)]).foldl insertRecord []) k = _
      rw [mapGet_foldl_insertRecord]
      simp [List.find?_cons]

/-- Witness for C1's amended statement at the concrete duplicated stream. -/
theorem C1_witness :
    rgDup.contig_keys =
      ([] : List (String × List Nat)).map Prod.fst ++ ["x", "x"] ∧
    mapGet rgDup.contig_map "x" =
      some (([67, 67] : List Nat).map toAsciiUpper) :=
  (C1_duplicates_overwrite "f" "x" [65, 65] [67, 67] []).2 rgDup (by rfl)

/-- Claim C2 counterexample: after `from_fasta` on a stream repeating the
identifier `"y"`, that name appears twice in `contig_keys` but only once
among the keys of `contig_map`, so the two sides do not have one-to-one
membership and `contig_keys` holds a duplicate. -/
theorem C2_counterexample :
    (from_fasta "g" [Except.ok ("y", [65]), Except.ok ("y", [67])]).map
      (fun rg => (rg.contig_keys.count "y",
        (rg.contig_map.map Prod.fst).count "y")) = Except.ok (2, 1) :=
  rfl

/-- Stores reachable through the operations the invariant of claim C2 ranges
over, with `from_fasta` restricted to streams whose record identifiers are
pairwise distinct — the restriction forced by `C2_counterexample`. -/
inductive Reachable : ReferenceGenome → Prop
  | empty : Reachable empty_reference
  | fasta (fn : String) (rs : List (String × List Nat))
      (rg : ReferenceGenome) (hnd : (rs.map Prod.fst).Nodup)
      (hok : from_fasta fn (List.map Except.ok rs) = Except.ok rg) :
      Reachable rg
  | add (rg : ReferenceGenome) (k : String) (s : List Nat)
      (rg' : ReferenceGenome) (hr : Reachable rg)
      (hok : add_contig rg k s = (rg', Except.ok ())) :
      Reachable rg'

/-- The membership invariant of claim C2: the order list and the key list of
the map are both duplicate-free and have the same members, so every name in
one appears exactly once in the other. -/
def keysUnique (rg : ReferenceGenome) : Prop :=
  rg.contig_keys.Nodup ∧ (rg.contig_map.map Prod.fst).Nodup ∧
  ∀ k, k ∈ rg.contig_keys ↔ k ∈ rg.contig_map.map Prod.fst

/-- Claim C2 (amended, proved): every store reachable via `empty_reference`,
`from_fasta` on a stream with pairwise-distinct identifiers, and any
sequence of `add_contig` calls satisfies the membership invariant:
`contig_keys` and the key set of `contig_map` have identical membership,
each name appearing exactly once in each. -/
theorem C2_membership_invariant (rg : ReferenceGenome) (h : Reachable rg) :
    keysUnique rg := by
  induction h with
  | empty =>
    exact ⟨List.nodup_nil, List.nodup_nil, fun k => by simp [empty_reference]⟩
  | fasta fn rs rg hnd hok =>
    simp only [from_fasta, fromFastaLoop_ok, List.nil_append] at hok
    cases hok
    have hkeys : (rs.foldl insertRecord []).map Prod.fst = rs.map Prod.fst := by
      simpa using foldl_insertRecord_map_fst rs [] (by simp) hnd
    refine ⟨hnd, ?_, fun k => ?_⟩
    · show ((rs.foldl insertRecord []).map Prod.fst).Nodup
      rw [hkeys]
      exact hnd
    · show k ∈ rs.map Prod.fst ↔ k ∈ (rs.foldl insertRecord []).map Prod.fst
      rw [hkeys]
  | add rg k s rg' hr hok ih =>
    obtain ⟨h1, h2, h3⟩ := ih
    by_cases hc : mapContains rg.contig_map k = true
    · rw [add_contig, if_pos hc] at hok
      injection hok with ha hb
      exact absurd hb (by simp)
    · rw [add_contig, if_neg hc] at hok
      injection hok with ha hb
      subst ha
      have hnotmap : k ∉ rg.contig_map.map Prod.fst := fun hmem =>
        hc ((mapContains_iff_mem rg.contig_map k).2 hmem)
      have hnotkeys : k ∉ rg.contig_keys := fun hmem => hnotmap ((h3 k).1 hmem)
      have hcf : mapContains rg.contig_map k = false := by simpa using hc
      have hins := mapInsert_map_fst_of_not_contains rg.contig_map k
        (s.map toAsciiUpper) hcf
      refine ⟨?_, ?_, fun k' => ?_⟩
      · show (rg.contig_keys ++ [k]).Nodup
        simp [List.nodup_append, h1, hnotkeys]
      · show ((mapInsert rg.contig_map k
            (s.map toAsciiUpper)).map Prod.fst).Nodup
        rw [hins]
        simp [List.nodup_append, h2, hnotmap]
      · show k' ∈ rg.contig_keys ++ [k] ↔
          k' ∈ (mapInsert rg.contig_map k (s.map toAsciiUpper)).map Prod.fst
        rw [hins]
        simp [h3 k']

/-- Witness for C2's amended statement: the store reached by one successful
`add_contig` on the empty reference has duplicate-free keys. -/
theorem C2_witness : rgAcgt.contig_keys.Nodup :=
  (C2_membership_invariant rgAcgt
    (Reachable.add empty_reference "x" [65, 99, 103, 116] rgAcgt
      Reachable.empty (by rfl))).1
